import Mathlib

/-!
Verification of the p6junctions comparison/collapse engine.

A junction holds a finite collection of elements under one of two storage
strategies and collapses to a boolean when compared against a scalar or
another junction.  The definitions below are a shallow embedding of the C++
sources:

* `JunctionSortedStore.h`  — the ordered (copy) backend: a `std::set`, i.e. a
  strictly ascending, deduplicated element sequence (`Store.sorted`),
  together with the positional accessors `FirstElement`, `SecondElement`,
  `PenultimateElement`, `LastElement` (assertion failures become `none`).
* `JunctionPiggyBackStore.h` — the unordered (alias) backend: a read-only
  view of a caller-owned element sequence (`Store.piggy`).
* `JunctionAll.h`, `JunctionAny.h`, `JunctionOne.h` — the four variants
  (None is `AnyOrNone` with `MustInvert = true`) with their six comparison
  operators, including the short-circuit paths taken when the backend is
  ordered and the right-hand side is a scalar or an All/Any/None junction.
* `JunctionReverseComparisons.h` — the `scalar OP junction` adaptors.
* `Junction.h` — the common base: `Map` (the transform operation) and the
  `JunctionType` enumeration.
-/

namespace P6

/-- The six comparison operators dispatched by the engine. -/
inductive Cmp where
  | lt | le | eq | ne | ge | gt
deriving DecidableEq, Repr

/-- The `JunctionType` enumeration from `Junction.h`:
`enum class JunctionType {None, One, Any, All}`. -/
inductive JunctionType where
  | None | One | Any | All
deriving DecidableEq, Repr

/-- The four junction variants. -/
inductive Variant where
  | vAll | vAny | vNone | vOne
deriving DecidableEq, Repr

/-- Application of a comparison operator to two elements, `a OP b`. -/
def Cmp.apply {α : Type} [LinearOrder α] : Cmp → α → α → Bool
  | .lt, a, b => decide (a < b)
  | .le, a, b => decide (a ≤ b)
  | .eq, a, b => decide (a = b)
  | .ne, a, b => decide (a ≠ b)
  | .ge, a, b => decide (a ≥ b)
  | .gt, a, b => decide (a > b)

/-- The operand swap performed by `JunctionReverseComparisons.h`:
`<` ↔ `>`, `<=` ↔ `>=`, `==`/`!=` unchanged. -/
def Cmp.swap : Cmp → Cmp
  | .lt => .gt
  | .le => .ge
  | .eq => .eq
  | .ne => .ne
  | .ge => .le
  | .gt => .lt

/-- A junction's storage: `sorted` embeds `JunctionSortedStore` (a `std::set`,
strictly ascending and deduplicated when well-formed, `Ordered = true`);
`piggy` embeds `JunctionPiggyBackStore` (an aliased caller-owned sequence in
caller order, `Ordered = false`). -/
inductive Store (α : Type) where
  | sorted (elems : List α)
  | piggy (elems : List α)
deriving DecidableEq, Repr

/-- The element sequence exposed by `Elements()`. -/
def Store.elements {α : Type} : Store α → List α
  | .sorted l => l
  | .piggy l => l

/-- The compile-time `Ordered` flag of the storage strategy. -/
def Store.Ordered {α : Type} : Store α → Bool
  | .sorted _ => true
  | .piggy _ => false

/-- `IsEmpty()`, common to both stores. -/
def Store.IsEmpty {α : Type} (st : Store α) : Bool :=
  st.elements.isEmpty

/-- Well-formedness: a sorted store really holds a strictly ascending
(hence deduplicated) sequence, as `std::set` guarantees; a piggy-back store
may hold anything. -/
def Store.WF {α : Type} [LinearOrder α] : Store α → Prop
  | .sorted l => l.Pairwise (· < ·)
  | .piggy _ => True

/-- `JunctionSortedStore::FirstElement`: asserts non-emptiness (modelled as
`none`), then returns `*elements.begin()`. -/
def FirstElement? {α : Type} (l : List α) : Option α :=
  if l.isEmpty then none else l.head?

/-- `JunctionSortedStore::HasSecondElement`: `GetSize() >= 2`. -/
def HasSecondElement {α : Type} (l : List α) : Bool :=
  decide (2 ≤ l.length)

/-- `JunctionSortedStore::SecondElement`: asserts `HasSecondElement`
(modelled as `none`), then returns `*(++begin())`. -/
def SecondElement? {α : Type} (l : List α) : Option α :=
  if HasSecondElement l then l.tail.head? else none

/-- `JunctionSortedStore::PenultimateElement`: asserts `HasSecondElement`
(modelled as `none`), then returns `*(++rbegin())`. -/
def PenultimateElement? {α : Type} (l : List α) : Option α :=
  if HasSecondElement l then l.reverse.tail.head? else none

/-- `JunctionSortedStore::LastElement`: asserts non-emptiness (modelled as
`none`), then returns `*elements.rbegin()`. -/
def LastElement? {α : Type} (l : List α) : Option α :=
  if l.isEmpty then none else l.reverse.head?

/-- `IsEmpty() or test(accessor)` with the short-circuiting `or` of the
source: the accessor is consulted only when the junction is non-empty. -/
def emptyOrHolds {α : Type} (p : α → Bool) : Option α → Bool
  | none => true
  | some a => p a

/-- `not IsEmpty() and test(accessor)` with the short-circuiting `and` of
the source: the accessor is consulted only when the junction is non-empty. -/
def presentAndHolds {α : Type} (p : α → Bool) : Option α → Bool
  | none => false
  | some a => p a

/-- A junction: a variant paired with a store (`Junction.h` plus the variant
subclasses). -/
structure Junction (α : Type) where
  variant : Variant
  store : Store α
deriving DecidableEq, Repr

/-- A junction is well-formed when its store is. -/
def Junction.WF {α : Type} [LinearOrder α] (j : Junction α) : Prop :=
  j.store.WF

/-- A right-hand operand of a comparison: a plain scalar or a junction. -/
inductive Rhs (α : Type) where
  | scalar (c : α)
  | junction (j : Junction α)
deriving DecidableEq, Repr

/-- Whether the right-hand operand is a One-junction (the C++ selects the
`One<OneStore>` overloads by type). -/
def Rhs.isOne {α : Type} : Rhs α → Bool
  | .junction j => decide (j.variant = .vOne)
  | .scalar _ => false

/-- Whether the right-hand operand is a None-junction (the C++ selects the
`None<NoneStore>` overloads by type). -/
def Rhs.isNone {α : Type} : Rhs α → Bool
  | .junction j => decide (j.variant = .vNone)
  | .scalar _ => false

/-- A right-hand operand is well-formed when any junction in it is. -/
def Rhs.WF {α : Type} [LinearOrder α] : Rhs α → Prop
  | .scalar _ => True
  | .junction j => j.WF

/-- `All::CheckAllElements`: false as soon as one element fails the test,
true otherwise. -/
def All.CheckAllElements {α : Type} (p : α → Bool) (l : List α) : Bool :=
  l.all p

/-- `AnyOrNone::CheckAllElements`: true as soon as one element passes the
test, false otherwise. -/
def AnyOrNone.CheckAllElements {α : Type} (p : α → Bool) (l : List α) : Bool :=
  l.any p

/-- `AnyOrNone::Invert`: `b ^ MustInvert`. -/
def AnyOrNone.Invert (mustInvert : Bool) (b : Bool) : Bool :=
  xor b mustInvert

/-- The loop of `One::CheckAllElements`: counts matches, returning false as
soon as a second match is seen (`if (++matches > 1) return false`). -/
def One.loop {α : Type} (p : α → Bool) : List α → Nat → Bool
  | [], matchCount => matchCount == 1
  | e :: rest, matchCount =>
      if p e then
        if matchCount + 1 > 1 then false else One.loop p rest (matchCount + 1)
      else
        One.loop p rest matchCount

/-- `One::CheckAllElements`: exactly one element passes the test. -/
def One.CheckAllElements {α : Type} (p : α → Bool) (l : List α) : Bool :=
  One.loop p l 0

/-- The per-element test against a plain scalar right-hand side:
`elem OP c`. -/
def scalarTest {α : Type} [LinearOrder α] (op : Cmp) (c : α) : α → Bool :=
  fun elem => op.apply elem c

/-- Dispatch of `All`'s six comparison operators (`JunctionAll.h`), given
the per-element test `p` for the right-hand side.  A One-junction on the
right always forces the full scan; `==`/`!=` never short-circuit; with an
ordered store the remaining operators consult one extremal element, the
extreme being reversed for a None-junction on the right; an unordered store
always scans. -/
def All.dispatch {α : Type} (st : Store α) (op : Cmp) (rhsIsOne rhsIsNone : Bool)
    (p : α → Bool) : Bool :=
  if rhsIsOne then All.CheckAllElements p st.elements
  else
    match st with
    | .piggy l => All.CheckAllElements p l
    | .sorted l =>
      match op with
      | .eq | .ne => All.CheckAllElements p l
      | .lt | .le =>
          if rhsIsNone then emptyOrHolds p (FirstElement? l)
          else emptyOrHolds p (LastElement? l)
      | .ge | .gt =>
          if rhsIsNone then emptyOrHolds p (LastElement? l)
          else emptyOrHolds p (FirstElement? l)

/-- Dispatch of `AnyOrNone`'s six comparison operators (`JunctionAny.h`):
the shared Any-engine with every result passed through `Invert`. -/
def AnyOrNone.dispatch {α : Type} (mustInvert : Bool) (st : Store α) (op : Cmp)
    (rhsIsOne rhsIsNone : Bool) (p : α → Bool) : Bool :=
  if rhsIsOne then AnyOrNone.Invert mustInvert (AnyOrNone.CheckAllElements p st.elements)
  else
    match st with
    | .piggy l => AnyOrNone.Invert mustInvert (AnyOrNone.CheckAllElements p l)
    | .sorted l =>
      match op with
      | .eq | .ne => AnyOrNone.Invert mustInvert (AnyOrNone.CheckAllElements p l)
      | .lt | .le =>
          AnyOrNone.Invert mustInvert
            (if rhsIsNone then presentAndHolds p (LastElement? l)
             else presentAndHolds p (FirstElement? l))
      | .ge | .gt =>
          AnyOrNone.Invert mustInvert
            (if rhsIsNone then presentAndHolds p (FirstElement? l)
             else presentAndHolds p (LastElement? l))

/-- Dispatch of `One`'s six comparison operators (`JunctionOne.h`): the
ordered short-circuit inspects the favourable extreme element and checks
that the adjacent element does not also match. -/
def One.dispatch {α : Type} (st : Store α) (op : Cmp) (rhsIsOne rhsIsNone : Bool)
    (p : α → Bool) : Bool :=
  if rhsIsOne then One.CheckAllElements p st.elements
  else
    match st with
    | .piggy l => One.CheckAllElements p l
    | .sorted l =>
      match op with
      | .eq | .ne => One.CheckAllElements p l
      | .lt | .le =>
          if rhsIsNone then
            presentAndHolds p (LastElement? l) && !(presentAndHolds p (PenultimateElement? l))
          else
            presentAndHolds p (FirstElement? l) && !(presentAndHolds p (SecondElement? l))
      | .ge | .gt =>
          if rhsIsNone then
            presentAndHolds p (FirstElement? l) && !(presentAndHolds p (SecondElement? l))
          else
            presentAndHolds p (LastElement? l) && !(presentAndHolds p (PenultimateElement? l))

/-- Comparison of a junction against a plain scalar, `junction OP c`. -/
def jctCompareScalar {α : Type} [LinearOrder α] (j : Junction α) (op : Cmp) (c : α) : Bool :=
  match j.variant with
  | .vAll => All.dispatch j.store op false false (scalarTest op c)
  | .vAny => AnyOrNone.dispatch false j.store op false false (scalarTest op c)
  | .vNone => AnyOrNone.dispatch true j.store op false false (scalarTest op c)
  | .vOne => One.dispatch j.store op false false (scalarTest op c)

/-- The per-element test `elem OP rhs`.  When the right-hand side is a
junction, the element is a plain value on the left, so the reverse-comparison
adaptors of `JunctionReverseComparisons.h` rewrite the test as
`rhs OP.swap elem`. -/
def elemTest {α : Type} [LinearOrder α] (op : Cmp) (rhs : Rhs α) : α → Bool :=
  match rhs with
  | .scalar c => scalarTest op c
  | .junction j => fun elem => jctCompareScalar j op.swap elem

/-- The full comparison `junction OP rhs` for a scalar or junction
right-hand side. -/
def jctCompare {α : Type} [LinearOrder α] (j : Junction α) (op : Cmp) (rhs : Rhs α) : Bool :=
  match j.variant with
  | .vAll => All.dispatch j.store op rhs.isOne rhs.isNone (elemTest op rhs)
  | .vAny => AnyOrNone.dispatch false j.store op rhs.isOne rhs.isNone (elemTest op rhs)
  | .vNone => AnyOrNone.dispatch true j.store op rhs.isOne rhs.isNone (elemTest op rhs)
  | .vOne => One.dispatch j.store op rhs.isOne rhs.isNone (elemTest op rhs)

/-- The reverse comparison `v < j` of `JunctionReverseComparisons.h`:
`return j > v`. -/
def revLt {α : Type} [LinearOrder α] (v : α) (j : Junction α) : Bool :=
  jctCompareScalar j .gt v

/-- The reverse comparison `v <= j`: `return j >= v`. -/
def revLe {α : Type} [LinearOrder α] (v : α) (j : Junction α) : Bool :=
  jctCompareScalar j .ge v

/-- The reverse comparison `v == j`: `return j == v`. -/
def revEq {α : Type} [LinearOrder α] (v : α) (j : Junction α) : Bool :=
  jctCompareScalar j .eq v

/-- The reverse comparison `v >= j`: `return j <= v`. -/
def revGe {α : Type} [LinearOrder α] (v : α) (j : Junction α) : Bool :=
  jctCompareScalar j .le v

/-- The reverse comparison `v > j`: `return j < v`. -/
def revGt {α : Type} [LinearOrder α] (v : α) (j : Junction α) : Bool :=
  jctCompareScalar j .lt v

/-- The reverse comparison `v != j`: `return j != v`. -/
def revNe {α : Type} [LinearOrder α] (v : α) (j : Junction α) : Bool :=
  jctCompareScalar j .ne v

/-- `std::set` insertion of one element into an ascending deduplicated
sequence. -/
def insertSorted {α : Type} [LinearOrder α] (a : α) : List α → List α
  | [] => [a]
  | b :: rest =>
      if a < b then a :: b :: rest
      else if a = b then b :: rest
      else b :: insertSorted a rest

/-- Construction of a `std::set` from an arbitrary element sequence: the
ascending deduplicated sequence with the same members. -/
def setOfList {α : Type} [LinearOrder α] (l : List α) : List α :=
  l.foldr insertSorted []

/-- `all_copy`: an All-junction over the ordered backend built from the
collection. -/
def all_copy {α : Type} [LinearOrder α] (l : List α) : Junction α :=
  ⟨.vAll, .sorted (setOfList l)⟩

/-- `all_ref`: an All-junction aliasing the collection via the unordered
backend. -/
def all_ref {α : Type} (l : List α) : Junction α :=
  ⟨.vAll, .piggy l⟩

/-- `any_copy`: an Any-junction over the ordered backend. -/
def any_copy {α : Type} [LinearOrder α] (l : List α) : Junction α :=
  ⟨.vAny, .sorted (setOfList l)⟩

/-- `any_ref`: an Any-junction over the unordered backend. -/
def any_ref {α : Type} (l : List α) : Junction α :=
  ⟨.vAny, .piggy l⟩

/-- `none_copy`: a None-junction over the ordered backend. -/
def none_copy {α : Type} [LinearOrder α] (l : List α) : Junction α :=
  ⟨.vNone, .sorted (setOfList l)⟩

/-- `none_ref`: a None-junction over the unordered backend. -/
def none_ref {α : Type} (l : List α) : Junction α :=
  ⟨.vNone, .piggy l⟩

/-- `one_copy`: a One-junction over the ordered backend. -/
def one_copy {α : Type} [LinearOrder α] (l : List α) : Junction α :=
  ⟨.vOne, .sorted (setOfList l)⟩

/-- `one_ref`: a One-junction over the unordered backend. -/
def one_ref {α : Type} (l : List α) : Junction α :=
  ⟨.vOne, .piggy l⟩

/-- `All::GetJunctionType`: `return JunctionType::All`. -/
def All.GetJunctionType : JunctionType := JunctionType.All

/-- `AnyOrNone::GetJunctionType`:
`return MustInvert? JunctionType::None: JunctionType::All`. -/
def AnyOrNone.GetJunctionType (mustInvert : Bool) : JunctionType :=
  if mustInvert then JunctionType.None else JunctionType.All

/-- `One::GetJunctionType`: `return JunctionType::One`. -/
def One.GetJunctionType : JunctionType := JunctionType.One

/-- The variant-identity query of a junction, dispatched to the variant's
static `GetJunctionType`. -/
def Junction.GetJunctionType {α : Type} (j : Junction α) : JunctionType :=
  match j.variant with
  | .vAll => All.GetJunctionType
  | .vAny => AnyOrNone.GetJunctionType false
  | .vNone => AnyOrNone.GetJunctionType true
  | .vOne => One.GetJunctionType

/-- `Junction::Map`: applies the transform to every element, inserting the
results into a fresh `std::set`, and wraps that set in a junction of the
same variant over the ordered backend. -/
def Junction.Map {α β : Type} [LinearOrder β] (j : Junction α) (f : α → β) : Junction β :=
  ⟨j.variant, .sorted (setOfList (j.store.elements.map f))⟩

/-- The defining collapse rule of each variant as a full scan: All requires
every element to pass, Any at least one, None no element, One exactly one. -/
def fullScan {α : Type} (v : Variant) (l : List α) (p : α → Bool) : Bool :=
  match v with
  | .vAll => l.all p
  | .vAny => l.any p
  | .vNone => !(l.any p)
  | .vOne => l.countP p == 1

/-! ### Basic facts about the accessors and the scan loops -/

theorem FirstElement?_eq_head? {α : Type} (l : List α) : FirstElement? l = l.head? := by
  cases l <;> rfl

theorem LastElement?_eq_reverse_head? {α : Type} (l : List α) :
    LastElement? l = l.reverse.head? := by
  cases l <;> rfl

theorem SecondElement?_eq_tail_head? {α : Type} (l : List α) :
    SecondElement? l = l.tail.head? := by
  match l with
  | [] => rfl
  | [a] => rfl
  | a :: b :: t => simp [SecondElement?, HasSecondElement, Nat.succ_le_succ]

theorem PenultimateElement?_eq_reverse_tail_head? {α : Type} (l : List α) :
    PenultimateElement? l = l.reverse.tail.head? := by
  match l with
  | [] => rfl
  | [a] => rfl
  | a :: b :: t =>
      have h2 : HasSecondElement (a :: b :: t) = true := by
        simp [HasSecondElement, Nat.succ_le_succ]
      simp [PenultimateElement?, h2]

theorem One.loop_eq_countP {α : Type} (p : α → Bool) :
    ∀ (l : List α) (matchCount : Nat),
      One.loop p l matchCount = (matchCount + l.countP p == 1) := by
  intro l
  induction l with
  | nil => intro m; simp [One.loop]
  | cons e rest ih =>
      intro m
      by_cases hp : p e
      · by_cases hm : m + 1 > 1
        · have : m + (e :: rest).countP p ≠ 1 := by
            have h1 : 1 ≤ rest.countP p + 1 := Nat.le_add_left 1 _
            simp [List.countP_cons, hp]
            omega
          simp [One.loop, hp, hm, Ne.symm this, this]
          omega
        · have hm0 : m = 0 := by omega
          subst hm0
          simp only [One.loop, hp, if_true, if_neg hm, ih]
          have : 1 + rest.countP p = 0 + (e :: rest).countP p := by
            simp [List.countP_cons, hp]
            omega
          rw [this]
      · have hstep : One.loop p (e :: rest) m = One.loop p rest m := by
          simp [One.loop, hp]
        rw [hstep, ih]
        have : rest.countP p = (e :: rest).countP p := by
          simp [List.countP_cons, hp]
        rw [this]

theorem One.CheckAllElements_eq_countP {α : Type} (p : α → Bool) (l : List α) :
    One.CheckAllElements p l = (l.countP p == 1) := by
  simp [One.CheckAllElements, One.loop_eq_countP]

/-! ### Short-circuit lemmas over pairwise-related lists

Each short-circuit path of the engine inspects the head (or, via the
reversed view, the last element) of the strictly ascending store.  The
following lemmas state, generically over the ordering relation, that a test
respecting the relation makes the extremal inspection agree with the full
scan. -/

theorem emptyOrHolds_head_eq_all {α : Type} {r : α → α → Prop} {p : α → Bool}
    (l : List α) (hs : l.Pairwise r)
    (hup : ∀ a b, r a b → p a = true → p b = true) :
    emptyOrHolds p l.head? = l.all p := by
  cases l with
  | nil => rfl
  | cons a t =>
      rw [List.pairwise_cons] at hs
      cases hpa : p a with
      | true =>
          have ht : ∀ x ∈ t, p x = true := fun x hx => hup a x (hs.1 x hx) hpa
          have : (a :: t).all p = true := by
            rw [List.all_eq_true]
            intro x hx
            rcases List.mem_cons.mp hx with rfl | hx
            · exact hpa
            · exact ht x hx
          simp [emptyOrHolds, hpa, this]
      | false =>
          have : (a :: t).all p = false := by
            rw [List.all_eq_false]
            exact ⟨a, List.mem_cons_self a t, by simp [hpa]⟩
          simp [emptyOrHolds, hpa, this]

theorem presentAndHolds_head_eq_any {α : Type} {r : α → α → Prop} {p : α → Bool}
    (l : List α) (hs : l.Pairwise r)
    (hdown : ∀ a b, r a b → p b = true → p a = true) :
    presentAndHolds p l.head? = l.any p := by
  cases l with
  | nil => rfl
  | cons a t =>
      rw [List.pairwise_cons] at hs
      cases hpa : p a with
      | true =>
          have : (a :: t).any p = true := by
            rw [List.any_eq_true]
            exact ⟨a, List.mem_cons_self a t, hpa⟩
          simp [presentAndHolds, hpa, this]
      | false =>
          have : (a :: t).any p = false := by
            rw [List.any_eq_false]
            intro x hx hpx
            rcases List.mem_cons.mp hx with rfl | hx
            · exact absurd hpx (by simp [hpa])
            · exact absurd hpa (by simp [hdown a x (hs.1 x hx) hpx])
          simp [presentAndHolds, hpa, this]

theorem presentAndHolds_one_eq_countP {α : Type} {r : α → α → Prop} {p : α → Bool}
    (l : List α) (hs : l.Pairwise r)
    (hdown : ∀ a b, r a b → p b = true → p a = true) :
    (presentAndHolds p l.head? && !(presentAndHolds p l.tail.head?))
      = (l.countP p == 1) := by
  match l with
  | [] => rfl
  | [a] =>
      cases hpa : p a <;>
        simp [presentAndHolds, List.countP_cons, hpa]
  | a :: b :: t =>
      rw [List.pairwise_cons] at hs
      have hsb := hs.2
      rw [List.pairwise_cons] at hsb
      cases hpa : p a with
      | false =>
          have hzero : (a :: b :: t).countP p = 0 := by
            rw [List.countP_eq_zero]
            intro x hx hpx
            rcases List.mem_cons.mp hx with rfl | hx
            · exact absurd hpx (by simp [hpa])
            · exact absurd hpa (by simp [hdown a x (hs.1 x hx) hpx])
          simp [presentAndHolds, hpa, hzero]
      | true =>
          cases hpb : p b with
          | true =>
              have htwo : 2 ≤ (a :: b :: t).countP p := by
                simp only [List.countP_cons, hpa, hpb, if_true]
                omega
              have : ((a :: b :: t).countP p == 1) = false := by
                simp only [beq_eq_false_iff_ne, ne_eq]
                omega
              simp [presentAndHolds, hpa, hpb, this]
          | false =>
              have hzero : t.countP p = 0 := by
                rw [List.countP_eq_zero]
                intro x hx hpx
                exact absurd hpb (by simp [hdown b x (hsb.1 x hx) hpx])
              have hone : (a :: b :: t).countP p = 1 := by
                simp [List.countP_cons, hpa, hpb, hzero]
              simp [presentAndHolds, hpa, hpb, hone]

/-! ### Transfer of the head lemmas to the reversed view -/

theorem all_reverse_eq {α : Type} (p : α → Bool) (l : List α) :
    l.reverse.all p = l.all p := by
  rw [List.all_reverse]

theorem any_reverse_eq {α : Type} (p : α → Bool) (l : List α) :
    l.reverse.any p = l.any p := by
  rw [List.any_reverse]

theorem countP_reverse_eq {α : Type} (p : α → Bool) (l : List α) :
    l.reverse.countP p = l.countP p :=
  (List.reverse_perm l).countP_eq p

theorem pairwise_reverse_of_pairwise {α : Type} {r : α → α → Prop} {l : List α}
    (hs : l.Pairwise r) : l.reverse.Pairwise (fun a b => r b a) := by
  rw [List.pairwise_reverse]
  exact hs

theorem emptyOrHolds_last_eq_all {α : Type} {r : α → α → Prop} {p : α → Bool}
    (l : List α) (hs : l.Pairwise r)
    (hdown : ∀ a b, r a b → p b = true → p a = true) :
    emptyOrHolds p (LastElement? l) = l.all p := by
  rw [LastElement?_eq_reverse_head?, ← all_reverse_eq p l]
  exact emptyOrHolds_head_eq_all l.reverse (pairwise_reverse_of_pairwise hs)
    (fun a b hr hpa => hdown b a hr hpa)

theorem emptyOrHolds_first_eq_all {α : Type} {r : α → α → Prop} {p : α → Bool}
    (l : List α) (hs : l.Pairwise r)
    (hup : ∀ a b, r a b → p a = true → p b = true) :
    emptyOrHolds p (FirstElement? l) = l.all p := by
  rw [FirstElement?_eq_head?]
  exact emptyOrHolds_head_eq_all l hs hup

theorem presentAndHolds_first_eq_any {α : Type} {r : α → α → Prop} {p : α → Bool}
    (l : List α) (hs : l.Pairwise r)
    (hdown : ∀ a b, r a b → p b = true → p a = true) :
    presentAndHolds p (FirstElement? l) = l.any p := by
  rw [FirstElement?_eq_head?]
  exact presentAndHolds_head_eq_any l hs hdown

theorem presentAndHolds_last_eq_any {α : Type} {r : α → α → Prop} {p : α → Bool}
    (l : List α) (hs : l.Pairwise r)
    (hup : ∀ a b, r a b → p a = true → p b = true) :
    presentAndHolds p (LastElement? l) = l.any p := by
  rw [LastElement?_eq_reverse_head?, ← any_reverse_eq p l]
  exact presentAndHolds_head_eq_any l.reverse (pairwise_reverse_of_pairwise hs)
    (fun a b hr hpb => hup b a hr hpb)

theorem one_low_eq_countP {α : Type} {r : α → α → Prop} {p : α → Bool}
    (l : List α) (hs : l.Pairwise r)
    (hdown : ∀ a b, r a b → p b = true → p a = true) :
    (presentAndHolds p (FirstElement? l) && !(presentAndHolds p (SecondElement? l)))
      = (l.countP p == 1) := by
  rw [FirstElement?_eq_head?, SecondElement?_eq_tail_head?]
  exact presentAndHolds_one_eq_countP l hs hdown

theorem one_high_eq_countP {α : Type} {r : α → α → Prop} {p : α → Bool}
    (l : List α) (hs : l.Pairwise r)
    (hup : ∀ a b, r a b → p a = true → p b = true) :
    (presentAndHolds p (LastElement? l) && !(presentAndHolds p (PenultimateElement? l)))
      = (l.countP p == 1) := by
  rw [LastElement?_eq_reverse_head?, PenultimateElement?_eq_reverse_tail_head?,
    ← countP_reverse_eq p l]
  exact presentAndHolds_one_eq_countP l.reverse (pairwise_reverse_of_pairwise hs)
    (fun a b hr hpb => hup b a hr hpb)

/-! ### The ordered backend's construction: strictly sorted, deduplicated,
membership-preserving -/

theorem mem_insertSorted {α : Type} [LinearOrder α] (a x : α) :
    ∀ l : List α, (x ∈ insertSorted a l ↔ x = a ∨ x ∈ l) := by
  intro l
  induction l with
  | nil => simp [insertSorted]
  | cons b rest ih =>
      by_cases h1 : a < b
      · simp [insertSorted, h1]
      · by_cases h2 : a = b
        · subst h2
          simp [insertSorted, h1]
        · simp only [insertSorted, if_neg h1, if_neg h2, List.mem_cons, ih]
          tauto

theorem pairwise_insertSorted {α : Type} [LinearOrder α] (a : α) :
    ∀ l : List α, l.Pairwise (· < ·) → (insertSorted a l).Pairwise (· < ·) := by
  intro l
  induction l with
  | nil => intro _; simp [insertSorted]
  | cons b rest ih =>
      intro hs
      rw [List.pairwise_cons] at hs
      by_cases h1 : a < b
      · simp only [insertSorted, if_pos h1]
        rw [List.pairwise_cons]
        constructor
        · intro x hx
          rcases List.mem_cons.mp hx with rfl | hx
          · exact h1
          · exact lt_trans h1 (hs.1 x hx)
        · rw [List.pairwise_cons]
          exact hs
      · by_cases h2 : a = b
        · simp only [insertSorted, if_neg h1, if_pos h2]
          rw [List.pairwise_cons]
          exact hs
        · have hba : b < a := lt_of_le_of_ne (not_lt.mp h1) fun hba => h2 hba.symm
          simp only [insertSorted, if_neg h1, if_neg h2]
          rw [List.pairwise_cons]
          constructor
          · intro x hx
            rcases (mem_insertSorted a x rest).mp hx with rfl | hx
            · exact hba
            · exact hs.1 x hx
          · exact ih hs.2

theorem pairwise_setOfList {α : Type} [LinearOrder α] (l : List α) :
    (setOfList l).Pairwise (· < ·) := by
  induction l with
  | nil => simp [setOfList]
  | cons a rest ih => exact pairwise_insertSorted a _ ih

theorem mem_setOfList {α : Type} [LinearOrder α] (x : α) (l : List α) :
    x ∈ setOfList l ↔ x ∈ l := by
  induction l with
  | nil => simp [setOfList]
  | cons a rest ih =>
      show x ∈ insertSorted a (setOfList rest) ↔ _
      rw [mem_insertSorted, ih]
      simp [List.mem_cons]

theorem nodup_setOfList {α : Type} [LinearOrder α] (l : List α) :
    (setOfList l).Nodup :=
  (pairwise_setOfList l).imp ne_of_lt

theorem setOfList_perm {α : Type} [LinearOrder α] (l : List α) (hnd : l.Nodup) :
    (setOfList l).Perm l := by
  refine List.perm_of_nodup_nodup_toFinset_eq (nodup_setOfList l) hnd ?_
  ext x
  simp [List.mem_toFinset, mem_setOfList]

/-! ### Direction of the per-element test, as demanded by each short-circuit
path -/

/-- A test that can only become false as the inspected element grows:
suitable for inspecting the smallest favourable element. -/
def DownClosed {α : Type} [LinearOrder α] (p : α → Bool) : Prop :=
  ∀ a b, a < b → p b = true → p a = true

/-- A test that can only become true as the inspected element grows:
suitable for inspecting the largest favourable element. -/
def UpClosed {α : Type} [LinearOrder α] (p : α → Bool) : Prop :=
  ∀ a b, a < b → p a = true → p b = true

/-- The direction each ordered short-circuit path relies on, per operator
and per the right-hand side being a None-junction (which reverses the
direction) or not.  `==`/`!=` never short-circuit, so no direction is
required. -/
def ClosedDir {α : Type} [LinearOrder α] : Cmp → Bool → (α → Bool) → Prop
  | .eq, _, _ => True
  | .ne, _, _ => True
  | .lt, false, p => DownClosed p
  | .le, false, p => DownClosed p
  | .ge, true, p => DownClosed p
  | .gt, true, p => DownClosed p
  | .lt, true, p => UpClosed p
  | .le, true, p => UpClosed p
  | .ge, false, p => UpClosed p
  | .gt, false, p => UpClosed p

theorem scalarTest_closedDir {α : Type} [LinearOrder α] (op : Cmp) (c : α) :
    ClosedDir op false (scalarTest op c) := by
  cases op with
  | eq => trivial
  | ne => trivial
  | lt =>
      intro a b hab hb
      simp only [scalarTest, Cmp.apply, decide_eq_true_eq] at hb ⊢
      exact lt_trans hab hb
  | le =>
      intro a b hab hb
      simp only [scalarTest, Cmp.apply, decide_eq_true_eq] at hb ⊢
      exact le_of_lt (lt_of_lt_of_le hab hb)
  | ge =>
      intro a b hab ha
      simp only [scalarTest, Cmp.apply, ge_iff_le, decide_eq_true_eq] at ha ⊢
      exact le_trans ha (le_of_lt hab)
  | gt =>
      intro a b hab ha
      simp only [scalarTest, Cmp.apply, gt_iff_lt, decide_eq_true_eq] at ha ⊢
      exact lt_trans ha hab

/-! ### Each dispatch path equals the full scan of its collapse rule -/

theorem AnyOrNone.Invert_false (b : Bool) : AnyOrNone.Invert false b = b := by
  simp [AnyOrNone.Invert]

theorem AnyOrNone.Invert_true (b : Bool) : AnyOrNone.Invert true b = !b := by
  simp [AnyOrNone.Invert]

theorem All.allDispatch_piggy_eq {α : Type} (l : List α) (op : Cmp)
    (isOne isNone : Bool) (p : α → Bool) :
    All.dispatch (.piggy l) op isOne isNone p = l.all p := by
  cases isOne <;> rfl

theorem AnyOrNone.anyDispatch_piggy_eq {α : Type} (mustInvert : Bool) (l : List α) (op : Cmp)
    (isOne isNone : Bool) (p : α → Bool) :
    AnyOrNone.dispatch mustInvert (.piggy l) op isOne isNone p
      = AnyOrNone.Invert mustInvert (l.any p) := by
  cases isOne <;> rfl

theorem One.oneDispatch_piggy_eq {α : Type} (l : List α) (op : Cmp)
    (isOne isNone : Bool) (p : α → Bool) :
    One.dispatch (.piggy l) op isOne isNone p = (l.countP p == 1) := by
  cases isOne <;> exact One.CheckAllElements_eq_countP p l

theorem All.allDispatch_oneRhs_eq {α : Type} (st : Store α) (op : Cmp)
    (isNone : Bool) (p : α → Bool) :
    All.dispatch st op true isNone p = st.elements.all p := rfl

theorem AnyOrNone.anyDispatch_oneRhs_eq {α : Type} (mustInvert : Bool) (st : Store α) (op : Cmp)
    (isNone : Bool) (p : α → Bool) :
    AnyOrNone.dispatch mustInvert st op true isNone p
      = AnyOrNone.Invert mustInvert (st.elements.any p) := rfl

theorem One.oneDispatch_oneRhs_eq {α : Type} (st : Store α) (op : Cmp)
    (isNone : Bool) (p : α → Bool) :
    One.dispatch st op true isNone p = (st.elements.countP p == 1) :=
  One.CheckAllElements_eq_countP p st.elements

theorem All.allDispatch_sorted_eq {α : Type} [LinearOrder α] (l : List α) (op : Cmp)
    (isNone : Bool) (p : α → Bool) (hs : l.Pairwise (· < ·))
    (hcl : ClosedDir op isNone p) :
    All.dispatch (.sorted l) op false isNone p = l.all p := by
  cases op with
  | eq => rfl
  | ne => rfl
  | lt =>
      cases isNone with
      | false => exact emptyOrHolds_last_eq_all l hs hcl
      | true => exact emptyOrHolds_first_eq_all l hs hcl
  | le =>
      cases isNone with
      | false => exact emptyOrHolds_last_eq_all l hs hcl
      | true => exact emptyOrHolds_first_eq_all l hs hcl
  | ge =>
      cases isNone with
      | false => exact emptyOrHolds_first_eq_all l hs hcl
      | true => exact emptyOrHolds_last_eq_all l hs hcl
  | gt =>
      cases isNone with
      | false => exact emptyOrHolds_first_eq_all l hs hcl
      | true => exact emptyOrHolds_last_eq_all l hs hcl

theorem AnyOrNone.anyDispatch_sorted_eq {α : Type} [LinearOrder α] (mustInvert : Bool)
    (l : List α) (op : Cmp) (isNone : Bool) (p : α → Bool) (hs : l.Pairwise (· < ·))
    (hcl : ClosedDir op isNone p) :
    AnyOrNone.dispatch mustInvert (.sorted l) op false isNone p
      = AnyOrNone.Invert mustInvert (l.any p) := by
  cases op with
  | eq => rfl
  | ne => rfl
  | lt =>
      cases isNone with
      | false =>
          exact congrArg (AnyOrNone.Invert mustInvert) (presentAndHolds_first_eq_any l hs hcl)
      | true =>
          exact congrArg (AnyOrNone.Invert mustInvert) (presentAndHolds_last_eq_any l hs hcl)
  | le =>
      cases isNone with
      | false =>
          exact congrArg (AnyOrNone.Invert mustInvert) (presentAndHolds_first_eq_any l hs hcl)
      | true =>
          exact congrArg (AnyOrNone.Invert mustInvert) (presentAndHolds_last_eq_any l hs hcl)
  | ge =>
      cases isNone with
      | false =>
          exact congrArg (AnyOrNone.Invert mustInvert) (presentAndHolds_last_eq_any l hs hcl)
      | true =>
          exact congrArg (AnyOrNone.Invert mustInvert) (presentAndHolds_first_eq_any l hs hcl)
  | gt =>
      cases isNone with
      | false =>
          exact congrArg (AnyOrNone.Invert mustInvert) (presentAndHolds_last_eq_any l hs hcl)
      | true =>
          exact congrArg (AnyOrNone.Invert mustInvert) (presentAndHolds_first_eq_any l hs hcl)

theorem One.oneDispatch_sorted_eq {α : Type} [LinearOrder α] (l : List α) (op : Cmp)
    (isNone : Bool) (p : α → Bool) (hs : l.Pairwise (· < ·))
    (hcl : ClosedDir op isNone p) :
    One.dispatch (.sorted l) op false isNone p = (l.countP p == 1) := by
  cases op with
  | eq => exact One.CheckAllElements_eq_countP p l
  | ne => exact One.CheckAllElements_eq_countP p l
  | lt =>
      cases isNone with
      | false => exact one_low_eq_countP l hs hcl
      | true => exact one_high_eq_countP l hs hcl
  | le =>
      cases isNone with
      | false => exact one_low_eq_countP l hs hcl
      | true => exact one_high_eq_countP l hs hcl
  | ge =>
      cases isNone with
      | false => exact one_high_eq_countP l hs hcl
      | true => exact one_low_eq_countP l hs hcl
  | gt =>
      cases isNone with
      | false => exact one_high_eq_countP l hs hcl
      | true => exact one_low_eq_countP l hs hcl

/-- Helper: comparison of a well-formed junction against a scalar equals
the full scan of the variant's collapse rule over the stored elements. -/
theorem jctCompareScalar_eq_fullScan {α : Type} [LinearOrder α] (j : Junction α)
    (op : Cmp) (c : α) (hj : j.WF) :
    jctCompareScalar j op c = fullScan j.variant j.store.elements (scalarTest op c) := by
  obtain ⟨v, st⟩ := j
  cases st with
  | piggy l =>
      cases v with
      | vAll => exact All.allDispatch_piggy_eq l op false false _
      | vAny =>
          show AnyOrNone.dispatch false (.piggy l) op false false _ = _
          rw [AnyOrNone.anyDispatch_piggy_eq, AnyOrNone.Invert_false]
          rfl
      | vNone =>
          show AnyOrNone.dispatch true (.piggy l) op false false _ = _
          rw [AnyOrNone.anyDispatch_piggy_eq, AnyOrNone.Invert_true]
          rfl
      | vOne => exact One.oneDispatch_piggy_eq l op false false _
  | sorted l =>
      have hs : l.Pairwise (· < ·) := hj
      cases v with
      | vAll => exact All.allDispatch_sorted_eq l op false _ hs (scalarTest_closedDir op c)
      | vAny =>
          show AnyOrNone.dispatch false (.sorted l) op false false _ = _
          rw [AnyOrNone.anyDispatch_sorted_eq false l op false _ hs (scalarTest_closedDir op c),
            AnyOrNone.Invert_false]
          rfl
      | vNone =>
          show AnyOrNone.dispatch true (.sorted l) op false false _ = _
          rw [AnyOrNone.anyDispatch_sorted_eq true l op false _ hs (scalarTest_closedDir op c),
            AnyOrNone.Invert_true]
          rfl
      | vOne => exact One.oneDispatch_sorted_eq l op false _ hs (scalarTest_closedDir op c)

/-- Helper: the per-element test of every comparison whose short-circuit
path can be selected (scalar or All/Any/None junction on the right) runs in
the direction that path relies on. -/
theorem elemTest_closedDir {α : Type} [LinearOrder α] (op : Cmp) (rhs : Rhs α)
    (hw : rhs.WF) (hnotOne : rhs.isOne = false) :
    ClosedDir op rhs.isNone (elemTest op rhs) := by
  cases rhs with
  | scalar c => exact scalarTest_closedDir op c
  | junction j =>
      obtain ⟨v, st⟩ := j
      have hst : Junction.WF ⟨v, st⟩ := hw
      cases v with
      | vOne => simp [Rhs.isOne] at hnotOne
      | vAll =>
          cases op with
          | eq => trivial
          | ne => trivial
          | lt =>
              intro a b hab hb
              simp only [elemTest, Cmp.swap, jctCompareScalar_eq_fullScan _ _ _ hst] at hb ⊢
              simp only [fullScan, List.all_eq_true, scalarTest, Cmp.apply, gt_iff_lt,
                decide_eq_true_eq] at hb ⊢
              intro r hr
              exact lt_trans hab (hb r hr)
          | le =>
              intro a b hab hb
              simp only [elemTest, Cmp.swap, jctCompareScalar_eq_fullScan _ _ _ hst] at hb ⊢
              simp only [fullScan, List.all_eq_true, scalarTest, Cmp.apply, ge_iff_le,
                decide_eq_true_eq] at hb ⊢
              intro r hr
              exact le_trans (le_of_lt hab) (hb r hr)
          | ge =>
              intro a b hab ha
              simp only [elemTest, Cmp.swap, jctCompareScalar_eq_fullScan _ _ _ hst] at ha ⊢
              simp only [fullScan, List.all_eq_true, scalarTest, Cmp.apply,
                decide_eq_true_eq] at ha ⊢
              intro r hr
              exact le_trans (ha r hr) (le_of_lt hab)
          | gt =>
              intro a b hab ha
              simp only [elemTest, Cmp.swap, jctCompareScalar_eq_fullScan _ _ _ hst] at ha ⊢
              simp only [fullScan, List.all_eq_true, scalarTest, Cmp.apply,
                decide_eq_true_eq] at ha ⊢
              intro r hr
              exact lt_trans (ha r hr) hab
      | vAny =>
          cases op with
          | eq => trivial
          | ne => trivial
          | lt =>
              intro a b hab hb
              simp only [elemTest, Cmp.swap, jctCompareScalar_eq_fullScan _ _ _ hst] at hb ⊢
              simp only [fullScan, List.any_eq_true, scalarTest, Cmp.apply, gt_iff_lt,
                decide_eq_true_eq] at hb ⊢
              obtain ⟨r, hr, hrb⟩ := hb
              exact ⟨r, hr, lt_trans hab hrb⟩
          | le =>
              intro a b hab hb
              simp only [elemTest, Cmp.swap, jctCompareScalar_eq_fullScan _ _ _ hst] at hb ⊢
              simp only [fullScan, List.any_eq_true, scalarTest, Cmp.apply, ge_iff_le,
                decide_eq_true_eq] at hb ⊢
              obtain ⟨r, hr, hrb⟩ := hb
              exact ⟨r, hr, le_trans (le_of_lt hab) hrb⟩
          | ge =>
              intro a b hab ha
              simp only [elemTest, Cmp.swap, jctCompareScalar_eq_fullScan _ _ _ hst] at ha ⊢
              simp only [fullScan, List.any_eq_true, scalarTest, Cmp.apply,
                decide_eq_true_eq] at ha ⊢
              obtain ⟨r, hr, hra⟩ := ha
              exact ⟨r, hr, le_trans hra (le_of_lt hab)⟩
          | gt =>
              intro a b hab ha
              simp only [elemTest, Cmp.swap, jctCompareScalar_eq_fullScan _ _ _ hst] at ha ⊢
              simp only [fullScan, List.any_eq_true, scalarTest, Cmp.apply,
                decide_eq_true_eq] at ha ⊢
              obtain ⟨r, hr, hra⟩ := ha
              exact ⟨r, hr, lt_trans hra hab⟩
      | vNone =>
          cases op with
          | eq => trivial
          | ne => trivial
          | lt =>
              intro a b hab ha
              simp only [elemTest, Cmp.swap, jctCompareScalar_eq_fullScan _ _ _ hst] at ha ⊢
              simp only [fullScan, Bool.not_eq_true', List.any_eq_false, scalarTest,
                Cmp.apply, gt_iff_lt, decide_eq_true_eq] at ha ⊢
              intro r hr hrb
              exact ha r hr (lt_trans hab hrb)
          | le =>
              intro a b hab ha
              simp only [elemTest, Cmp.swap, jctCompareScalar_eq_fullScan _ _ _ hst] at ha ⊢
              simp only [fullScan, Bool.not_eq_true', List.any_eq_false, scalarTest,
                Cmp.apply, ge_iff_le, decide_eq_true_eq] at ha ⊢
              intro r hr hrb
              exact ha r hr (le_trans (le_of_lt hab) hrb)
          | ge =>
              intro a b hab hb
              simp only [elemTest, Cmp.swap, jctCompareScalar_eq_fullScan _ _ _ hst] at hb ⊢
              simp only [fullScan, Bool.not_eq_true', List.any_eq_false, scalarTest,
                Cmp.apply, decide_eq_true_eq] at hb ⊢
              intro r hr hra
              exact hb r hr (le_trans hra (le_of_lt hab))
          | gt =>
              intro a b hab hb
              simp only [elemTest, Cmp.swap, jctCompareScalar_eq_fullScan _ _ _ hst] at hb ⊢
              simp only [fullScan, Bool.not_eq_true', List.any_eq_false, scalarTest,
                Cmp.apply, decide_eq_true_eq] at hb ⊢
              intro r hr hra
              exact hb r hr (lt_trans hra hab)

/-- Helper: every comparison of a well-formed junction against a well-formed
right-hand operand — short-circuit or not — equals the full scan of the
variant's collapse rule over the stored elements. -/
theorem jctCompare_eq_fullScan {α : Type} [LinearOrder α] (j : Junction α)
    (op : Cmp) (rhs : Rhs α) (hj : j.WF) (hrhs : rhs.WF) :
    jctCompare j op rhs = fullScan j.variant j.store.elements (elemTest op rhs) := by
  obtain ⟨v, st⟩ := j
  cases hone : rhs.isOne with
  | true =>
      cases v with
      | vAll =>
          show All.dispatch st op rhs.isOne rhs.isNone _ = _
          rw [hone, All.allDispatch_oneRhs_eq]
          rfl
      | vAny =>
          show AnyOrNone.dispatch false st op rhs.isOne rhs.isNone _ = _
          rw [hone, AnyOrNone.anyDispatch_oneRhs_eq, AnyOrNone.Invert_false]
          rfl
      | vNone =>
          show AnyOrNone.dispatch true st op rhs.isOne rhs.isNone _ = _
          rw [hone, AnyOrNone.anyDispatch_oneRhs_eq, AnyOrNone.Invert_true]
          rfl
      | vOne =>
          show One.dispatch st op rhs.isOne rhs.isNone _ = _
          rw [hone, One.oneDispatch_oneRhs_eq]
          rfl
  | false =>
      have hcl := elemTest_closedDir op rhs hrhs hone
      cases st with
      | piggy l =>
          cases v with
          | vAll =>
              show All.dispatch (.piggy l) op rhs.isOne rhs.isNone _ = _
              rw [All.allDispatch_piggy_eq]
              rfl
          | vAny =>
              show AnyOrNone.dispatch false (.piggy l) op rhs.isOne rhs.isNone _ = _
              rw [AnyOrNone.anyDispatch_piggy_eq, AnyOrNone.Invert_false]
              rfl
          | vNone =>
              show AnyOrNone.dispatch true (.piggy l) op rhs.isOne rhs.isNone _ = _
              rw [AnyOrNone.anyDispatch_piggy_eq, AnyOrNone.Invert_true]
              rfl
          | vOne =>
              show One.dispatch (.piggy l) op rhs.isOne rhs.isNone _ = _
              rw [One.oneDispatch_piggy_eq]
              rfl
      | sorted l =>
          have hs : l.Pairwise (· < ·) := hj
          cases v with
          | vAll =>
              show All.dispatch (.sorted l) op rhs.isOne rhs.isNone _ = _
              rw [hone, All.allDispatch_sorted_eq l op rhs.isNone _ hs hcl]
              rfl
          | vAny =>
              show AnyOrNone.dispatch false (.sorted l) op rhs.isOne rhs.isNone _ = _
              rw [hone, AnyOrNone.anyDispatch_sorted_eq false l op rhs.isNone _ hs hcl,
                AnyOrNone.Invert_false]
              rfl
          | vNone =>
              show AnyOrNone.dispatch true (.sorted l) op rhs.isOne rhs.isNone _ = _
              rw [hone, AnyOrNone.anyDispatch_sorted_eq true l op rhs.isNone _ hs hcl,
                AnyOrNone.Invert_true]
              rfl
          | vOne =>
              show One.dispatch (.sorted l) op rhs.isOne rhs.isNone _ = _
              rw [hone, One.oneDispatch_sorted_eq l op rhs.isNone _ hs hcl]
              rfl

/-! ### Further helpers: scans depend only on membership (for deduplicated
lists) and the None/Any inversion is uniform across every dispatch path -/

theorem all_congr_of_mem_iff {α : Type} (l₁ l₂ : List α) (p : α → Bool)
    (h : ∀ x, x ∈ l₁ ↔ x ∈ l₂) : l₁.all p = l₂.all p := by
  cases h₂ : l₂.all p with
  | false =>
      rw [List.all_eq_false] at h₂ ⊢
      obtain ⟨x, hx, hpx⟩ := h₂
      exact ⟨x, (h x).mpr hx, hpx⟩
  | true =>
      rw [List.all_eq_true] at h₂ ⊢
      intro x hx
      exact h₂ x ((h x).mp hx)

theorem any_congr_of_mem_iff {α : Type} (l₁ l₂ : List α) (p : α → Bool)
    (h : ∀ x, x ∈ l₁ ↔ x ∈ l₂) : l₁.any p = l₂.any p := by
  cases h₂ : l₂.any p with
  | false =>
      rw [List.any_eq_false] at h₂ ⊢
      intro x hx
      exact h₂ x ((h x).mp hx)
  | true =>
      rw [List.any_eq_true] at h₂ ⊢
      obtain ⟨x, hx, hpx⟩ := h₂
      exact ⟨x, (h x).mpr hx, hpx⟩

theorem AnyOrNone.dispatch_invert {α : Type} (st : Store α) (op : Cmp)
    (isOne isNone : Bool) (p : α → Bool) :
    AnyOrNone.dispatch true st op isOne isNone p
      = !(AnyOrNone.dispatch false st op isOne isNone p) := by
  cases isOne with
  | true =>
      rw [AnyOrNone.anyDispatch_oneRhs_eq, AnyOrNone.anyDispatch_oneRhs_eq,
        AnyOrNone.Invert_true, AnyOrNone.Invert_false]
  | false =>
      cases st with
      | piggy l =>
          rw [AnyOrNone.anyDispatch_piggy_eq, AnyOrNone.anyDispatch_piggy_eq,
            AnyOrNone.Invert_true, AnyOrNone.Invert_false]
      | sorted l =>
          cases op <;> cases isNone <;>
            simp [AnyOrNone.dispatch, AnyOrNone.Invert]

/-! ### The claims -/

/-- C2: for every empty junction (either backend) and every scalar
right-hand operand, each of the six comparison operators returns a boolean:
true when the variant is All or None, false when the variant is Any or
One. -/
theorem c2_empty_junction_vacuous {α : Type} [LinearOrder α] (v : Variant) (op : Cmp)
    (c : α) (ordered : Bool) :
    (jctCompare ⟨v, if ordered then Store.sorted ([] : List α) else Store.piggy []⟩ op
        (Rhs.scalar c) = true)
      ↔ (v = Variant.vAll ∨ v = Variant.vNone) := by
  cases ordered with
  | true =>
      rw [if_pos rfl,
        jctCompare_eq_fullScan ⟨v, Store.sorted ([] : List α)⟩ op (Rhs.scalar c)
          List.Pairwise.nil trivial]
      cases v <;> simp [fullScan, Store.elements]
  | false =>
      rw [show (if (false : Bool) = true then Store.sorted ([] : List α) else Store.piggy [])
            = Store.piggy [] from rfl,
        jctCompare_eq_fullScan ⟨v, Store.piggy ([] : List α)⟩ op (Rhs.scalar c)
          trivial trivial]
      cases v <;> simp [fullScan, Store.elements]

/-- C3: for every collection, either backend, every right-hand operand and
every one of the six operators, the None-junction's result is the logical
negation of the Any-junction's result: None is the shared `AnyOrNone`
engine with `MustInvert = true`. -/
theorem c3_none_negates_any {α : Type} [LinearOrder α] (st : Store α) (op : Cmp)
    (rhs : Rhs α) :
    jctCompare ⟨.vNone, st⟩ op rhs = !(jctCompare ⟨.vAny, st⟩ op rhs) :=
  AnyOrNone.dispatch_invert st op rhs.isOne rhs.isNone (elemTest op rhs)

/-- C4: for every scalar and every junction (any variant, either backend),
the reverse-comparison forms agree with the swapped canonical forms:
`x < j` is `j > x`, `x <= j` is `j >= x`, `x > j` is `j < x`, `x >= j` is
`j <= x`, `x == j` is `j == x` and `x != j` is `j != x`. -/
theorem c4_reverse_comparisons {α : Type} [LinearOrder α] (x : α) (j : Junction α) :
    revLt x j = jctCompare j .gt (.scalar x) ∧
    revLe x j = jctCompare j .ge (.scalar x) ∧
    revGt x j = jctCompare j .lt (.scalar x) ∧
    revGe x j = jctCompare j .le (.scalar x) ∧
    revEq x j = jctCompare j .eq (.scalar x) ∧
    revNe x j = jctCompare j .ne (.scalar x) := by
  obtain ⟨v, st⟩ := j
  cases v <;> exact ⟨rfl, rfl, rfl, rfl, rfl, rfl⟩

/-- C5: the variant-identity query.  All, None and One junctions report
their own variant, but `AnyOrNone::GetJunctionType` returns
`MustInvert? JunctionType::None: JunctionType::All`, so an Any-junction
(`MustInvert = false`) reports `JunctionType::All`, not
`JunctionType::Any` — contradicting the claim (and the source's own
comment that every junction reports its own type). -/
theorem c5_any_junction_misreports :
    All.GetJunctionType = JunctionType.All ∧
    AnyOrNone.GetJunctionType true = JunctionType.None ∧
    One.GetJunctionType = JunctionType.One ∧
    AnyOrNone.GetJunctionType false = JunctionType.All ∧
    AnyOrNone.GetJunctionType false ≠ JunctionType.Any := by
  refine ⟨rfl, rfl, rfl, rfl, ?_⟩
  decide

/-- C8: `!=` is the variant's collapse rule applied to the per-element test
`elem != rhs`, not the negation of `==`; hence `all({1,2})` yields false
for both `== 2` and `!= 2`, and `any({1,2})` yields true for both. -/
theorem c8_ne_is_collapse_not_negation {α : Type} [LinearOrder α] :
    (∀ (st : Store α) (rhs : Rhs α),
        jctCompare ⟨.vAll, st⟩ .ne rhs
          = All.CheckAllElements (elemTest .ne rhs) st.elements ∧
        jctCompare ⟨.vAny, st⟩ .ne rhs
          = AnyOrNone.Invert false (AnyOrNone.CheckAllElements (elemTest .ne rhs) st.elements) ∧
        jctCompare ⟨.vOne, st⟩ .ne rhs
          = One.CheckAllElements (elemTest .ne rhs) st.elements) ∧
    jctCompare (all_copy [1, 2]) .eq (.scalar 2) = false ∧
    jctCompare (all_copy [1, 2]) .ne (.scalar 2) = false ∧
    jctCompare (any_copy [1, 2]) .eq (.scalar 2) = true ∧
    jctCompare (any_copy [1, 2]) .ne (.scalar 2) = true := by
  refine ⟨?_, by decide, by decide, by decide, by decide⟩
  intro st rhs
  refine ⟨?_, ?_, ?_⟩
  · show All.dispatch st .ne rhs.isOne rhs.isNone _ = _
    cases hone : rhs.isOne <;> cases st <;> rfl
  · show AnyOrNone.dispatch false st .ne rhs.isOne rhs.isNone _ = _
    cases hone : rhs.isOne <;> cases st <;> rfl
  · show One.dispatch st .ne rhs.isOne rhs.isNone _ = _
    cases hone : rhs.isOne <;> cases st <;> rfl

/-- C10: an alias-mode (unordered-backend) One-junction counts every
occurrence in the aliased collection separately: its comparisons collapse
by occurrence count, so a collection holding two or more copies of `v`
makes `== v` false. -/
theorem c10_alias_counts_occurrences {α : Type} [LinearOrder α] (l : List α) (v : α)
    (hdup : 2 ≤ l.countP (scalarTest .eq v)) :
    jctCompare (one_ref l) .eq (.scalar v) = false ∧
    ∀ (op : Cmp) (c : α),
      jctCompare (one_ref l) op (.scalar c) = (l.countP (scalarTest op c) == 1) := by
  have hgen : ∀ (op : Cmp) (c : α),
      jctCompare (one_ref l) op (.scalar c) = (l.countP (scalarTest op c) == 1) :=
    fun op c => One.oneDispatch_piggy_eq l op false false _
  refine ⟨?_, hgen⟩
  rw [hgen .eq v]
  simp only [beq_eq_false_iff_ne, ne_eq]
  omega

/-- C10 witness: the collection `[1, 1]` aliased by a One-junction holds
two occurrences of 1, and `== 1` collapses to false. -/
theorem c10_alias_counts_occurrences_witness :
    2 ≤ ([1, 1] : List Int).countP (scalarTest .eq 1) ∧
    (jctCompare (one_ref ([1, 1] : List Int)) .eq (.scalar 1) = false ∧
     ∀ (op : Cmp) (c : Int),
       jctCompare (one_ref ([1, 1] : List Int)) op (.scalar c)
         = (([1, 1] : List Int).countP (scalarTest op c) == 1)) :=
  ⟨by decide, c10_alias_counts_occurrences [1, 1] 1 (by decide)⟩

/-- C7: a copy-mode One-junction collapses to true exactly when one element
of the deduplicated element set satisfies the per-element test; in
particular `one({1,1,1}) == 1`, `one({1,2,3,4}) == 4` and
`one({1,2,3,4}) > 3` are true while `one({1,2,3,4}) > 2` is false. -/
theorem c7_one_copy_exactly_one {α : Type} [LinearOrder α] (C : List α) (op : Cmp)
    (c : α) :
    (jctCompare (one_copy C) op (.scalar c) = true
      ↔ (setOfList C).countP (scalarTest op c) = 1) ∧
    jctCompare (one_copy ([1, 1, 1] : List Int)) .eq (.scalar 1) = true ∧
    jctCompare (one_copy ([1, 2, 3, 4] : List Int)) .eq (.scalar 4) = true ∧
    jctCompare (one_copy ([1, 2, 3, 4] : List Int)) .gt (.scalar 3) = true ∧
    jctCompare (one_copy ([1, 2, 3, 4] : List Int)) .gt (.scalar 2) = false := by
  refine ⟨?_, by decide, by decide, by decide, by decide⟩
  rw [jctCompare_eq_fullScan (one_copy C) op (.scalar c) (pairwise_setOfList C) trivial]
  show ((setOfList C).countP (elemTest op (.scalar c)) == 1) = true ↔ _
  exact beq_iff_eq

/-! ### Helpers for the positional accessors of the sorted store -/

theorem head?_min {α : Type} {r : α → α → Prop} (l : List α) (hs : l.Pairwise r)
    (a : α) (h : l.head? = some a) : a ∈ l ∧ ∀ x ∈ l, x = a ∨ r a x := by
  cases l with
  | nil => exact absurd h (by simp)
  | cons b t =>
      rw [List.pairwise_cons] at hs
      have hb : b = a := by simpa using h
      subst hb
      refine ⟨List.mem_cons_self b t, ?_⟩
      intro x hx
      rcases List.mem_cons.mp hx with rfl | hx
      · exact Or.inl rfl
      · exact Or.inr (hs.1 x hx)

theorem tail_head?_second {α : Type} [LinearOrder α] (l : List α)
    (hs : l.Pairwise (· < ·)) (a : α) (h : l.tail.head? = some a) :
    a ∈ l ∧ l.countP (fun x => decide (x < a)) = 1 := by
  match l with
  | [] => exact absurd h (by simp)
  | [b] => exact absurd h (by simp)
  | b :: d :: t =>
      rw [List.pairwise_cons] at hs
      have hsd := hs.2
      rw [List.pairwise_cons] at hsd
      have hd : d = a := by simpa using h
      subst hd
      refine ⟨List.mem_cons.mpr (Or.inr (List.mem_cons_self d t)), ?_⟩
      have hzero : t.countP (fun x => decide (x < d)) = 0 := by
        rw [List.countP_eq_zero]
        intro x hx
        simp only [decide_eq_true_eq, not_lt]
        exact le_of_lt (hsd.1 x hx)
      have hbd : b < d := hs.1 d (List.mem_cons_self d t)
      simp [List.countP_cons, hzero, hbd]

theorem tail_head?_second_desc {α : Type} [LinearOrder α] (l : List α)
    (hs : l.Pairwise (fun x y => y < x)) (a : α) (h : l.tail.head? = some a) :
    a ∈ l ∧ l.countP (fun x => decide (a < x)) = 1 := by
  match l with
  | [] => exact absurd h (by simp)
  | [b] => exact absurd h (by simp)
  | b :: d :: t =>
      rw [List.pairwise_cons] at hs
      have hsd := hs.2
      rw [List.pairwise_cons] at hsd
      have hd : d = a := by simpa using h
      subst hd
      refine ⟨List.mem_cons.mpr (Or.inr (List.mem_cons_self d t)), ?_⟩
      have hzero : t.countP (fun x => decide (d < x)) = 0 := by
        rw [List.countP_eq_zero]
        intro x hx
        simp only [decide_eq_true_eq, not_lt]
        exact le_of_lt (hsd.1 x hx)
      have hbd : d < b := hs.1 d (List.mem_cons_self d t)
      simp [List.countP_cons, hzero, hbd]

theorem tail_head?_eq_none_iff {α : Type} (l : List α) :
    l.tail.head? = none ↔ l.length < 2 := by
  match l with
  | [] => simp
  | [a] => simp
  | a :: b :: t => simp

/-- C9: on a well-formed ordered store, `FirstElement`, `SecondElement`,
`PenultimateElement` and `LastElement` return the smallest, second-smallest,
second-largest and largest element of the deduplicated ascending set, and
fail their fatal assertion (modelled as `none`) exactly when the
precondition (non-empty, resp. at least two elements) does not hold. -/
theorem c9_positional_accessors {α : Type} [LinearOrder α] (l : List α)
    (hs : l.Pairwise (· < ·)) :
    (FirstElement? l = none ↔ l = []) ∧
    (∀ a, FirstElement? l = some a → a ∈ l ∧ ∀ x ∈ l, a ≤ x) ∧
    (SecondElement? l = none ↔ l.length < 2) ∧
    (∀ a, SecondElement? l = some a →
      a ∈ l ∧ l.countP (fun x => decide (x < a)) = 1) ∧
    (PenultimateElement? l = none ↔ l.length < 2) ∧
    (∀ a, PenultimateElement? l = some a →
      a ∈ l ∧ l.countP (fun x => decide (a < x)) = 1) ∧
    (LastElement? l = none ↔ l = []) ∧
    (∀ a, LastElement? l = some a → a ∈ l ∧ ∀ x ∈ l, x ≤ a) := by
  refine ⟨?_, ?_, ?_, ?_, ?_, ?_, ?_, ?_⟩
  · cases l <;> simp [FirstElement?]
  · intro a h
    rw [FirstElement?_eq_head?] at h
    obtain ⟨hmem, hrel⟩ := head?_min l hs a h
    refine ⟨hmem, ?_⟩
    intro x hx
    rcases hrel x hx with rfl | hlt
    · exact le_refl x
    · exact le_of_lt hlt
  · rw [SecondElement?_eq_tail_head?, tail_head?_eq_none_iff]
  · intro a h
    rw [SecondElement?_eq_tail_head?] at h
    exact tail_head?_second l hs a h
  · rw [PenultimateElement?_eq_reverse_tail_head?, tail_head?_eq_none_iff,
      List.length_reverse]
  · intro a h
    rw [PenultimateElement?_eq_reverse_tail_head?] at h
    have hrev : l.reverse.Pairwise (fun x y => y < x) := by
      rw [List.pairwise_reverse]
      exact hs
    obtain ⟨hmem, hcount⟩ := tail_head?_second_desc l.reverse hrev a h
    exact ⟨List.mem_reverse.mp hmem, by rw [← countP_reverse_eq]; exact hcount⟩
  · cases l with
    | nil => simp [LastElement?]
    | cons b t => simp [LastElement?]
  · intro a h
    rw [LastElement?_eq_reverse_head?] at h
    have hrev : l.reverse.Pairwise (fun x y => y < x) := by
      rw [List.pairwise_reverse]
      exact hs
    obtain ⟨hmem, hrel⟩ := head?_min l.reverse hrev a h
    refine ⟨List.mem_reverse.mp hmem, ?_⟩
    intro x hx
    rcases hrel x (List.mem_reverse.mpr hx) with rfl | hlt
    · exact le_refl x
    · exact le_of_lt hlt

/-- C9 witness: the accessors at the concrete sorted store `[1, 2, 3]`. -/
theorem c9_positional_accessors_witness :
    ([1, 2, 3] : List Int).Pairwise (· < ·) ∧
    ((FirstElement? ([1, 2, 3] : List Int) = none ↔ ([1, 2, 3] : List Int) = []) ∧
     (∀ a, FirstElement? ([1, 2, 3] : List Int) = some a →
       a ∈ ([1, 2, 3] : List Int) ∧ ∀ x ∈ ([1, 2, 3] : List Int), a ≤ x) ∧
     (SecondElement? ([1, 2, 3] : List Int) = none ↔ ([1, 2, 3] : List Int).length < 2) ∧
     (∀ a, SecondElement? ([1, 2, 3] : List Int) = some a →
       a ∈ ([1, 2, 3] : List Int) ∧ ([1, 2, 3] : List Int).countP (fun x => decide (x < a)) = 1) ∧
     (PenultimateElement? ([1, 2, 3] : List Int) = none ↔ ([1, 2, 3] : List Int).length < 2) ∧
     (∀ a, PenultimateElement? ([1, 2, 3] : List Int) = some a →
       a ∈ ([1, 2, 3] : List Int) ∧ ([1, 2, 3] : List Int).countP (fun x => decide (a < x)) = 1) ∧
     (LastElement? ([1, 2, 3] : List Int) = none ↔ ([1, 2, 3] : List Int) = []) ∧
     (∀ a, LastElement? ([1, 2, 3] : List Int) = some a →
       a ∈ ([1, 2, 3] : List Int) ∧ ∀ x ∈ ([1, 2, 3] : List Int), x ≤ a)) :=
  ⟨by decide, c9_positional_accessors [1, 2, 3] (by decide)⟩

/-- C6: the transform (call) operator yields a new junction of the same
variant over a fresh ordered backend holding the deduplicated sorted set of
the transform applied to every element, independently of the source
junction's storage strategy; in particular `all({1,2,3})` transformed by
`x+1` is an All-junction equal to `all({2,3,4})`. -/
theorem c6_transform_same_variant_fresh_sorted {α β : Type} [LinearOrder β]
    (j : Junction α) (f : α → β) :
    ((j.Map f).variant = j.variant ∧
     (j.Map f).store.Ordered = true ∧
     Junction.WF (j.Map f) ∧
     (∀ b, b ∈ (j.Map f).store.elements ↔ ∃ a ∈ j.store.elements, f a = b) ∧
     (∀ (l : List α) (v : Variant),
        Junction.Map ⟨v, .sorted l⟩ f = Junction.Map ⟨v, .piggy l⟩ f)) ∧
    (Junction.Map (all_ref ([1, 2, 3] : List Int)) (fun x => x + 1) = all_copy [2, 3, 4] ∧
     Junction.Map (all_copy ([1, 2, 3] : List Int)) (fun x => x + 1) = all_copy [2, 3, 4] ∧
     (all_copy ([2, 3, 4] : List Int)).variant = Variant.vAll ∧
     (all_copy ([2, 3, 4] : List Int)).store.Ordered = true) := by
  refine ⟨⟨rfl, rfl, ?_, ?_, fun l v => rfl⟩, by decide, by decide, rfl, rfl⟩
  · exact pairwise_setOfList (j.store.elements.map f)
  · intro b
    show b ∈ setOfList (j.store.elements.map f) ↔ _
    rw [mem_setOfList]
    simp [List.mem_map]

/-- C1 counterexample: over the collection `{1, 1}`, a One-junction built
with the ordered (copy) backend answers `== 1` with true (duplicates
collapse), while the same variant over the unordered (alias) backend
answers false (each occurrence counts separately), so the two backends are
not observably equivalent for every collection. -/
theorem c1_ordered_unordered_differ_on_duplicates :
    jctCompare (one_copy ([1, 1] : List Int)) .eq (.scalar 1) = true ∧
    jctCompare (one_ref ([1, 1] : List Int)) .eq (.scalar 1) = false := by
  decide

/-- C1 (amended): for every finite collection with no duplicate elements,
every well-formed right-hand operand (scalar or All/Any/None/One junction)
and every one of the six comparison operators, the junction built with the
ordered (copy) backend returns the same boolean as the same variant over
the unordered (alias) backend: the ordered short-circuit paths are
observably equivalent to the full-scan paths. -/
theorem c1_backend_equivalence_nodup {α : Type} [LinearOrder α] (C : List α)
    (hnd : C.Nodup) (v : Variant) (op : Cmp) (rhs : Rhs α) (hrhs : rhs.WF) :
    jctCompare ⟨v, .sorted (setOfList C)⟩ op rhs = jctCompare ⟨v, .piggy C⟩ op rhs := by
  rw [jctCompare_eq_fullScan ⟨v, .sorted (setOfList C)⟩ op rhs (pairwise_setOfList C) hrhs,
    jctCompare_eq_fullScan ⟨v, .piggy C⟩ op rhs trivial hrhs]
  have hmem : ∀ x, x ∈ setOfList C ↔ x ∈ C := fun x => mem_setOfList x C
  have hperm := setOfList_perm C hnd
  cases v with
  | vAll =>
      exact all_congr_of_mem_iff (setOfList C) C (elemTest op rhs) hmem
  | vAny =>
      exact any_congr_of_mem_iff (setOfList C) C (elemTest op rhs) hmem
  | vNone =>
      exact congrArg Bool.not
        (any_congr_of_mem_iff (setOfList C) C (elemTest op rhs) hmem)
  | vOne =>
      show ((setOfList C).countP _ == 1) = (C.countP _ == 1)
      rw [hperm.countP_eq (elemTest op rhs)]

/-- C1 witness: the duplicate-free collection `[1, 2]` as a One-junction,
compared via `<` against a None-junction right-hand operand, agrees across
the two backends. -/
theorem c1_backend_equivalence_nodup_witness :
    ([1, 2] : List Int).Nodup ∧
    (Rhs.junction (none_copy ([2, 3] : List Int))).WF ∧
    jctCompare ⟨.vOne, .sorted (setOfList ([1, 2] : List Int))⟩ .lt
        (.junction (none_copy ([2, 3] : List Int)))
      = jctCompare ⟨.vOne, .piggy ([1, 2] : List Int)⟩ .lt
          (.junction (none_copy ([2, 3] : List Int))) :=
  ⟨by decide, pairwise_setOfList ([2, 3] : List Int),
    c1_backend_equivalence_nodup [1, 2] (by decide) .vOne .lt
      (.junction (none_copy ([2, 3] : List Int))) (pairwise_setOfList ([2, 3] : List Int))⟩

end P6
